import Mathlib

/-!
Verification of the variable-batch-size-and-LR batching pipeline.

The repository's example driver (`variable_batch_size_and_lr_example.py`) configures and
consumes the dynamic-batching core (Sample Selector, Pack Builder, Rank Partitioner,
Batch Assembler, LR Rescaler).  The core itself is not part of the repository's sources,
so those components are modelled from the specification; the driver's own
`TestData.batch_collate_fn` / `TestData.batch_seqlens_fn` are embedded from the source.
-/

namespace VarBatch

/-- Modelled from the spec: the `sequence_picking_order` policy of the Pack Builder
(§4.3): `dataloader` keeps the incoming order, `seqlen` sorts ascending by length
(stable), `random` applies a seed-derived deterministic permutation. -/
inductive PickOrder where
  | dataloader
  | seqlen
  | random
deriving DecidableEq

/-- Modelled from the spec: a deterministic per-id key derived from the seed, realising
"a permutation generated from `seed`, reproducible given the same seed" (§4.3); the spec
fixes no particular pseudo-random generator. -/
def randKey (seed i : ℕ) : ℕ :=
  (seed * 2654435761 + i * 40503 + 12345) % 2 ^ 32

/-- Modelled from the spec: order the sample ids per the selected policy (§4.3).
`seqlen` is a stable sort ascending by length (ties keep original id order);
`random` permutes by the seed-derived key. -/
def orderIds (ord : PickOrder) (ids : List ℕ) (len : ℕ → ℕ) (seed : ℕ) : List ℕ :=
  match ord with
  | .dataloader => ids
  | .seqlen => List.insertionSort (fun a b => len a ≤ len b) ids
  | .random => List.insertionSort (fun a b => randKey seed a ≤ randKey seed b) ids

/-- Modelled from the spec: the greedy left-to-right scan of §4.3. `cur` holds the
current pack (in reverse) and `s` its running token sum; the next sample is appended
when `s + len i ≤ maxTokens`, otherwise the current pack is closed and a new one is
started with that sample.  A sample longer than `maxTokens` therefore starts, and is
closed as, a singleton pack. -/
def greedyAux (len : ℕ → ℕ) (maxTokens : ℕ) : List ℕ → List ℕ → ℕ → List (List ℕ)
  | [], cur, _ => if cur = [] then [] else [cur.reverse]
  | i :: rest, cur, s =>
    if cur = [] ∨ s + len i ≤ maxTokens then
      greedyAux len maxTokens rest (i :: cur) (s + len i)
    else
      cur.reverse :: greedyAux len maxTokens rest [i] (len i)

/-- Modelled from the spec: the closed packs that the greedy scan of §4.3 produces over
an ordered id list, before the min/max size filter. -/
def greedyPacks (len : ℕ → ℕ) (maxTokens : ℕ) (orderedIds : List ℕ) : List (List ℕ) :=
  greedyAux len maxTokens orderedIds [] 0

/-- Modelled from the spec: whether a closed pack respects the pack-size bounds (§3). -/
def packSizeOk (min_batch_size max_batch_size : ℕ) (p : List ℕ) : Bool :=
  decide (min_batch_size ≤ p.length ∧ p.length ≤ max_batch_size)

/-- Modelled from the spec: `build_packs` (§4.3) — order the ids by the policy, greedily
pack them under the token budget, then discard in their entirety (never truncate) the
closed packs whose size violates `min_batch_size ≤ |pack| ≤ max_batch_size`, per §3's
invariant and the example's configuration comments ("If sequence pack is
smaller/larger, it's discarded"). -/
def build_packs (ids : List ℕ) (len : ℕ → ℕ) (ord : PickOrder)
    (maxTokens min_batch_size max_batch_size seed : ℕ) : List (List ℕ) :=
  (greedyPacks len maxTokens (orderIds ord ids len seed)).filter
    (packSizeOk min_batch_size max_batch_size)

/-- Modelled from the spec: §4.4 — drop the trailing `len(packs) mod world_size` packs
so that the remaining count is divisible by `world_size`. -/
def trimPacks (packs : List (List ℕ)) (world_size : ℕ) : List (List ℕ) :=
  packs.take (packs.length - packs.length % world_size)

/-- Modelled from the spec: `partition` (§4.4) — the shard of `rank`: the trimmed packs
at positions `rank, rank + world_size, rank + 2*world_size, …`. -/
def partition (packs : List (List ℕ)) (rank world_size : ℕ) : List (List ℕ) :=
  (List.range ((trimPacks packs world_size).length / world_size)).map
    (fun i => (trimPacks packs world_size).getD (rank + i * world_size) [])

/-- Modelled from the spec: `assemble` (§4.5) — group consecutive packs of a shard into
bundles of exactly `accumulation_steps` packs each (bundle `k` holds the packs at
positions `k*acc … (k+1)*acc - 1`); the trailing partial bundle, when
`accumulation_steps` does not divide the shard length, is dropped. -/
def assemble (acc : ℕ) (shard : List (List ℕ)) : List (List (List ℕ)) :=
  (List.range (shard.length / acc)).map (fun k => (shard.drop (k * acc)).take acc)

/-- Modelled from the spec: the Sample Selector's error of §7 (`InvalidFilterError`). -/
inductive SelectError where
  | invalidFilter
deriving DecidableEq

/-- Modelled from the spec: `select` (§4.2) — with no filter return all ids unchanged in
original order; with a filter return the filtered ids in the filter's order, failing
with `InvalidFilterError` when some filter id is not among `all_ids`. -/
def select (all_ids : List ℕ) : Option (List ℕ) → Except SelectError (List ℕ)
  | Option.none => .ok all_ids
  | Option.some fs =>
    if fs.all (fun f => all_ids.contains f) then .ok fs else .error .invalidFilter

/-- Modelled from the spec: the `lr_scaling_method` of §4.6. -/
inductive ScalingMethod where
  | linear
  | sqrt
  | none
deriving DecidableEq

/-- Modelled from the spec: §4.6 — the learning rate for a pack of observed size `b`
relative to `base_batch_size`, under the chosen scaling law. -/
noncomputable def scale_lr (m : ScalingMethod) (base_lr : ℝ) (b base_batch_size : ℕ) : ℝ :=
  match m with
  | .linear => base_lr * ((b : ℝ) / (base_batch_size : ℝ))
  | .sqrt => base_lr * Real.sqrt ((b : ℝ) / (base_batch_size : ℝ))
  | .none => base_lr

/-- The dataset's padding value (`TestData.__init__` sets `self.padding_value = 0`). -/
def padding_value : ℤ := 0

/-- `TestData.batch_collate_fn`: zip the batch into sequences and labels, pad every
sequence to the batch's maximum sequence length with rows of `padding_value`
(`nn.utils.rnn.pad_sequence` with `batch_first=True`), keep the labels.  A sequence is a
list of rows of `embed_dim` entries each. -/
def batch_collate_fn (embed_dim : ℕ) (batch : List (List (List ℤ) × ℕ)) :
    List (List (List ℤ)) × List ℕ :=
  let seqs := batch.map Prod.fst
  let maxLen := (seqs.map List.length).foldr max 0
  (seqs.map (fun s =>
      s ++ List.replicate (maxLen - s.length) (List.replicate embed_dim padding_value)),
   batch.map Prod.snd)

/-- `TestData.batch_seqlens_fn`, per sequence: `pad_indices` are the indices where
column 0 equals `padding_value`; the recovered length is `len(seq)` when there is no
such index, else the first one. -/
def seqlen_of (seq : List (List ℤ)) : ℕ :=
  (seq.findIdx? (fun row => row.headI == padding_value)).getD seq.length

/-- `TestData.batch_seqlens_fn`: the per-sequence lengths recovered from a collated
batch. -/
def batch_seqlens_fn (batch : List (List (List ℤ)) × List ℕ) : List ℕ :=
  batch.1.map seqlen_of

/-- The example scenario's lengths `[3,5,2,4,6,1]` (spec §8), as a length function on
sample ids. -/
def exLen : ℕ → ℕ := fun i => [3, 5, 2, 4, 6, 1].getD i 0

/-! ### Theorems -/

/-- C1: for every fixed input tuple (ids, lengths, ordering policy, max_tokens,
min_batch_size, max_batch_size, seed), two calls to `build_packs` yield identical pack
sequences: the embedding is a pure function of exactly those inputs, so two runs agree
definitionally. -/
theorem build_packs_deterministic (ids : List ℕ) (len : ℕ → ℕ) (ord : PickOrder)
    (maxTokens min_bs max_bs seed : ℕ) :
    build_packs ids len ord maxTokens min_bs max_bs seed
      = build_packs ids len ord maxTokens min_bs max_bs seed := rfl

/-- C6: the LR Rescaler computes `base_lr * (b / base_batch_size)` under the linear law,
`base_lr * sqrt (b / base_batch_size)` under the sqrt law, and `base_lr` under none; in
particular linear at `b = base_batch_size` returns exactly `base_lr` and sqrt at
`b = 4 * base_batch_size` returns `2 * base_lr`. -/
theorem lr_rescaler_spec (base_lr : ℝ) (b bb : ℕ) (_hb : 0 < b) (hbb : 0 < bb) :
    scale_lr .linear base_lr b bb = base_lr * ((b : ℝ) / (bb : ℝ)) ∧
    scale_lr .sqrt base_lr b bb = base_lr * Real.sqrt ((b : ℝ) / (bb : ℝ)) ∧
    scale_lr .none base_lr b bb = base_lr ∧
    scale_lr .linear base_lr bb bb = base_lr ∧
    scale_lr .sqrt base_lr (4 * bb) bb = 2 * base_lr := by
  have hbb' : ((bb : ℝ)) ≠ 0 := Nat.cast_ne_zero.mpr (Nat.pos_iff_ne_zero.mp hbb)
  refine ⟨rfl, rfl, rfl, ?_, ?_⟩
  · show base_lr * ((bb : ℝ) / (bb : ℝ)) = base_lr
    rw [div_self hbb', mul_one]
  · show base_lr * Real.sqrt (((4 * bb : ℕ) : ℝ) / (bb : ℝ)) = 2 * base_lr
    have h4 : ((4 * bb : ℕ) : ℝ) / (bb : ℝ) = 4 := by
      push_cast
      field_simp
    have hs : Real.sqrt 4 = 2 := by
      rw [show (4 : ℝ) = 2 ^ 2 by norm_num, Real.sqrt_sq (by norm_num : (0:ℝ) ≤ 2)]
    rw [h4, hs, mul_comm]

/-- Witness for C6, at `base_lr = 1`, `b = 1`, `base_batch_size = 1`. -/
theorem lr_rescaler_witness :
    scale_lr .linear 1 1 1 = 1 ∧ scale_lr .sqrt 1 (4 * 1) 1 = 2 * 1 := by
  have h := lr_rescaler_spec 1 1 1 (by norm_num) (by norm_num)
  exact ⟨h.2.2.2.1, h.2.2.2.2⟩

/-- Helper for C8: the concatenation of the first `q` bundles is the first `q * acc`
packs of the shard. -/
theorem assemble_join_aux (shard : List (List ℕ)) (acc : ℕ) :
    ∀ q : ℕ, ((List.range q).map (fun k => (shard.drop (k * acc)).take acc)).flatten
      = shard.take (q * acc) := by
  intro q
  induction q with
  | zero => simp
  | succ q ih =>
    rw [List.range_succ, List.map_append, List.flatten_append, ih]
    simp only [List.map_cons, List.map_nil, List.flatten_cons, List.flatten_nil,
      List.append_nil]
    rw [Nat.succ_mul, List.take_add]

/-- C8: `assemble(shard, accumulation_steps)` groups consecutive packs into bundles of
exactly `accumulation_steps` packs each, dropping a trailing partial bundle, so the
number of optimizer-step bundles equals `⌊len(shard) / accumulation_steps⌋` and the
bundles concatenate to the first `⌊len/acc⌋ * acc` packs of the shard. -/
theorem assemble_spec (shard : List (List ℕ)) (acc : ℕ) (hacc : 0 < acc) :
    (assemble acc shard).length = shard.length / acc ∧
    (∀ bundle ∈ assemble acc shard, bundle.length = acc) ∧
    (assemble acc shard).flatten = shard.take (shard.length / acc * acc) := by
  refine ⟨by simp [assemble], ?_, ?_⟩
  · intro bundle hb
    simp only [assemble, List.mem_map, List.mem_range] at hb
    obtain ⟨k, hk, rfl⟩ := hb
    have h3 : k * acc + acc ≤ shard.length := by
      have hk1 : k + 1 ≤ shard.length / acc := hk
      have h1 : (k + 1) * acc ≤ shard.length / acc * acc :=
        Nat.mul_le_mul_right acc hk1
      have h2 : shard.length / acc * acc ≤ shard.length := Nat.div_mul_le_self _ _
      calc k * acc + acc = (k + 1) * acc := by ring
        _ ≤ shard.length / acc * acc := h1
        _ ≤ shard.length := h2
    simp only [List.length_take, List.length_drop]
    omega
  · show ((List.range (shard.length / acc)).map
        (fun k => (shard.drop (k * acc)).take acc)).flatten = _
    exact assemble_join_aux shard acc _

/-- Witness for C8, at `acc = 2` and a 5-pack shard. -/
theorem assemble_witness :
    (assemble 2 [[0], [1], [2], [3], [4]]).length = 5 / 2 ∧
    (assemble 2 [[0], [1], [2], [3], [4]]).flatten
      = List.take (5 / 2 * 2) [[0], [1], [2], [3], [4]] := by
  have h := assemble_spec [[0], [1], [2], [3], [4]] 2 (by norm_num)
  exact ⟨h.1, h.2.2⟩

/-- C9: `select` returns `all_ids` unchanged when the filter is omitted; with a filter
it returns the ids in the filter's order, succeeding exactly when every filter id is
present in `all_ids` and failing with `InvalidFilterError` exactly when some filter id
is absent. -/
theorem select_spec (all_ids fs : List ℕ) :
    select all_ids Option.none = .ok all_ids ∧
    ((∀ f ∈ fs, f ∈ all_ids) → select all_ids (Option.some fs) = .ok fs) ∧
    (select all_ids (Option.some fs) = .error .invalidFilter ↔ ∃ f ∈ fs, f ∉ all_ids) := by
  have hcond : (fs.all (fun f => all_ids.contains f) = true) ↔ ∀ f ∈ fs, f ∈ all_ids := by
    simp [List.all_eq_true]
  refine ⟨rfl, ?_, ?_⟩
  · intro h
    simp only [select]
    rw [if_pos (hcond.mpr h)]
  · constructor
    · intro herr
      by_contra hno
      push_neg at hno
      simp only [select] at herr
      rw [if_pos (hcond.mpr hno)] at herr
      exact Except.noConfusion herr
    · rintro ⟨f, hf, hnf⟩
      simp only [select]
      rw [if_neg]
      intro hc
      exact hnf (hcond.mp hc f hf)

/-- Witness for C9: a filter whose ids all occur in `all_ids` is returned in the
filter's own order. -/
theorem select_witness : select [1, 2, 3] (Option.some [3, 1]) = .ok [3, 1] :=
  (select_spec [1, 2, 3] [3, 1]).2.1 (by decide)

/-- Helper for C2: along the greedy scan, when every remaining sample's length is within
the budget and the running pack already fits, every closed pack fits the budget. -/
theorem greedyAux_sum_le (len : ℕ → ℕ) (maxT : ℕ) :
    ∀ (l cur : List ℕ) (s : ℕ), (∀ i ∈ l, len i ≤ maxT) →
      (cur.map len).sum = s → s ≤ maxT →
      ∀ p ∈ greedyAux len maxT l cur s, (p.map len).sum ≤ maxT := by
  intro l
  induction l with
  | nil =>
    intro cur s hl hsum hs p hp
    simp only [greedyAux] at hp
    by_cases hcur : cur = []
    · simp [hcur] at hp
    · rw [if_neg hcur] at hp
      simp only [List.mem_singleton] at hp
      subst hp
      rw [List.map_reverse, List.sum_reverse, hsum]
      exact hs
  | cons i rest ih =>
    intro cur s hl hsum hs p hp
    simp only [greedyAux] at hp
    by_cases hc : cur = [] ∨ s + len i ≤ maxT
    · rw [if_pos hc] at hp
      have hsum' : ((i :: cur).map len).sum = s + len i := by
        simp only [List.map_cons, List.sum_cons, hsum]
        omega
      have hs' : s + len i ≤ maxT := by
        rcases hc with hc | hc
        · subst hc
          simp only [List.map_nil, List.sum_nil] at hsum
          have := hl i (List.mem_cons_self _ _)
          omega
        · exact hc
      exact ih (i :: cur) (s + len i) (fun j hj => hl j (List.mem_cons_of_mem _ hj))
        hsum' hs' p hp
    · rw [if_neg hc] at hp
      rcases List.mem_cons.mp hp with hp | hp
      · subst hp
        rw [List.map_reverse, List.sum_reverse, hsum]
        exact hs
      · exact ih [i] (len i) (fun j hj => hl j (List.mem_cons_of_mem _ hj)) (by simp)
          (hl i (List.mem_cons_self _ _)) p hp

/-- Counterexample to C2 as stated: with a single sample of length 10 and
`max_tokens = 5`, `build_packs` emits the singleton pack `[0]`, whose summed length 10
exceeds the budget 5 (the spec itself mandates emitting oversized samples alone). -/
theorem budget_invariant_counterexample :
    ¬ (∀ p ∈ build_packs [0] (fun _ => 10) .dataloader 5 1 10 0,
        (p.map (fun _ => 10)).sum ≤ 5) := by decide

/-- C2 (amended): provided every sample's length is at most `max_tokens`, every pack
emitted by `build_packs` has summed length at most `max_tokens`. -/
theorem budget_invariant (ids : List ℕ) (len : ℕ → ℕ) (ord : PickOrder)
    (maxTokens min_bs max_bs seed : ℕ) (hlen : ∀ i ∈ ids, len i ≤ maxTokens) :
    ∀ p ∈ build_packs ids len ord maxTokens min_bs max_bs seed,
      (p.map len).sum ≤ maxTokens := by
  intro p hp
  have hp' : p ∈ greedyPacks len maxTokens (orderIds ord ids len seed) :=
    List.mem_of_mem_filter hp
  have hord : ∀ i ∈ orderIds ord ids len seed, len i ≤ maxTokens := by
    intro i hi
    apply hlen
    cases ord with
    | dataloader => exact hi
    | seqlen => exact ((List.perm_insertionSort _ ids).mem_iff).mp hi
    | random => exact ((List.perm_insertionSort _ ids).mem_iff).mp hi
  exact greedyAux_sum_le len maxTokens _ [] 0 hord rfl (Nat.zero_le _) p hp'

/-- Witness for C2 (amended): two samples of lengths 1 and 2 under budget 5 are packed
together, and the theorem bounds the emitted pack's sum by the budget. -/
theorem budget_invariant_witness :
    ([0, 1] : List ℕ) ∈ build_packs [0, 1] (fun i => i + 1) .dataloader 5 1 10 0 ∧
    (([0, 1] : List ℕ).map (fun i => i + 1)).sum ≤ 5 :=
  ⟨by decide,
   budget_invariant [0, 1] (fun i => i + 1) .dataloader 5 1 10 0 (by decide) [0, 1]
     (by decide)⟩

/-- C3: every pack emitted by `build_packs` has size within
`[min_batch_size, max_batch_size]`; the emitted sequence is a sublist of the greedy
scan's closed packs (packs survive whole, never truncated); and a closed pack violating
either bound is discarded in its entirety. -/
theorem size_invariant (ids : List ℕ) (len : ℕ → ℕ) (ord : PickOrder)
    (maxTokens min_bs max_bs seed : ℕ) :
    (∀ p ∈ build_packs ids len ord maxTokens min_bs max_bs seed,
        min_bs ≤ p.length ∧ p.length ≤ max_bs) ∧
    (build_packs ids len ord maxTokens min_bs max_bs seed).Sublist
      (greedyPacks len maxTokens (orderIds ord ids len seed)) ∧
    (∀ p ∈ greedyPacks len maxTokens (orderIds ord ids len seed),
        ¬(min_bs ≤ p.length ∧ p.length ≤ max_bs) →
        p ∉ build_packs ids len ord maxTokens min_bs max_bs seed) := by
  refine ⟨?_, List.filter_sublist _, ?_⟩
  · intro p hp
    exact of_decide_eq_true (List.mem_filter.mp hp).2
  · intro p _ hviol hp
    exact hviol (of_decide_eq_true (List.mem_filter.mp hp).2)

/-- Witness for C3, on the spec's §8 example: the emitted pack `[5,2,0]` respects the
bounds, and the emitted packs form a sublist of the greedy scan's closed packs. -/
theorem size_invariant_witness :
    (1 ≤ ([5, 2, 0] : List ℕ).length ∧ ([5, 2, 0] : List ℕ).length ≤ 10) ∧
    (build_packs [0, 1, 2, 3, 4, 5] exLen .seqlen 7 1 10 42).Sublist
      (greedyPacks exLen 7 (orderIds .seqlen [0, 1, 2, 3, 4, 5] exLen 42)) :=
  ⟨(size_invariant [0, 1, 2, 3, 4, 5] exLen .seqlen 7 1 10 42).1 [5, 2, 0] (by decide),
   (size_invariant [0, 1, 2, 3, 4, 5] exLen .seqlen 7 1 10 42).2.1⟩

/-- Helper for C7: once the current pack's running sum already exceeds the budget, the
greedy scan closes it as-is, whatever samples follow. -/
theorem greedyAux_close_over (len : ℕ → ℕ) (maxT : ℕ) (i : ℕ) :
    ∀ (rest : List ℕ) (s : ℕ), maxT < s → [i] ∈ greedyAux len maxT rest [i] s := by
  intro rest s hs
  cases rest with
  | nil => simp [greedyAux]
  | cons j tl =>
    simp only [greedyAux]
    rw [if_neg]
    · exact List.mem_cons_self _ _
    · rintro (h | h)
      · exact List.cons_ne_nil _ _ h
      · omega

/-- Helper for C7: a sample whose length exceeds the budget is always closed as a
singleton pack by the greedy scan, from any intermediate state. -/
theorem greedyAux_oversized (len : ℕ → ℕ) (maxT : ℕ) (i : ℕ) (hi : maxT < len i) :
    ∀ (l : List ℕ), i ∈ l → ∀ (cur : List ℕ) (s : ℕ), [i] ∈ greedyAux len maxT l cur s := by
  intro l
  induction l with
  | nil => intro h; cases h
  | cons j tl ih =>
    intro hmem cur s
    simp only [greedyAux]
    rcases List.mem_cons.mp hmem with rfl | hmem'
    · by_cases hc : cur = [] ∨ s + len i ≤ maxT
      · rw [if_pos hc]
        have hcur : cur = [] := by
          rcases hc with hc | hc
          · exact hc
          · omega
        subst hcur
        exact greedyAux_close_over len maxT i tl (s + len i) (by omega)
      · rw [if_neg hc]
        exact List.mem_cons_of_mem _ (greedyAux_close_over len maxT i tl (len i) hi)
    · by_cases hc : cur = [] ∨ s + len j ≤ maxT
      · rw [if_pos hc]
        exact ih hmem' _ _
      · rw [if_neg hc]
        exact List.mem_cons_of_mem _ (ih hmem' _ _)

/-- Helper for C7: the greedy scan closes at most one pack per scanned sample plus the
trailing pack. -/
theorem greedyAux_length_le (len : ℕ → ℕ) (maxT : ℕ) :
    ∀ (l cur : List ℕ) (s : ℕ), (greedyAux len maxT l cur s).length ≤ l.length + 1 := by
  intro l
  induction l with
  | nil =>
    intro cur s
    by_cases hc : cur = [] <;> simp [greedyAux, hc]
  | cons j tl ih =>
    intro cur s
    simp only [greedyAux]
    by_cases hc : cur = [] ∨ s + len j ≤ maxT
    · rw [if_pos hc]
      have h := ih (j :: cur) (s + len j)
      simp only [List.length_cons]
      omega
    · rw [if_neg hc]
      have h := ih [j] (len j)
      simp only [List.length_cons]
      omega

/-- Helper for C7: the greedy scan closes at most one pack per sample of the ordered
input. -/
theorem greedyPacks_length_le (len : ℕ → ℕ) (maxT : ℕ) (l : List ℕ) :
    (greedyPacks len maxT l).length ≤ l.length := by
  cases l with
  | nil => simp [greedyPacks, greedyAux]
  | cons j tl =>
    show (greedyAux len maxT (j :: tl) [] 0).length ≤ tl.length + 1
    simp only [greedyAux]
    rw [if_pos (Or.inl trivial)]
    exact greedyAux_length_le len maxT tl [j] (0 + len j)

/-- C7: `build_packs` terminates on every input — the greedy scan closes at most one
pack per sample — and a sample whose length exceeds `max_tokens` is closed as a
singleton pack rather than looping forever; whenever the size bounds admit singletons,
that pack is emitted by `build_packs`. -/
theorem build_packs_terminates (ids : List ℕ) (len : ℕ → ℕ) (ord : PickOrder)
    (maxTokens min_bs max_bs seed : ℕ) (i : ℕ) (hmem : i ∈ ids)
    (hover : maxTokens < len i) :
    (greedyPacks len maxTokens (orderIds ord ids len seed)).length ≤ ids.length ∧
    [i] ∈ greedyPacks len maxTokens (orderIds ord ids len seed) ∧
    (min_bs ≤ 1 → 1 ≤ max_bs →
      [i] ∈ build_packs ids len ord maxTokens min_bs max_bs seed) := by
  have hmem' : i ∈ orderIds ord ids len seed := by
    cases ord with
    | dataloader => exact hmem
    | seqlen => exact ((List.perm_insertionSort _ ids).mem_iff).mpr hmem
    | random => exact ((List.perm_insertionSort _ ids).mem_iff).mpr hmem
  have hleneq : (orderIds ord ids len seed).length = ids.length := by
    cases ord with
    | dataloader => rfl
    | seqlen => exact List.length_insertionSort _ _
    | random => exact List.length_insertionSort _ _
  have hg : [i] ∈ greedyPacks len maxTokens (orderIds ord ids len seed) :=
    greedyAux_oversized len maxTokens i hover _ hmem' [] 0
  refine ⟨?_, hg, ?_⟩
  · rw [← hleneq]
    exact greedyPacks_length_le _ _ _
  · intro h1 h2
    apply List.mem_filter.mpr
    refine ⟨hg, ?_⟩
    simpa [packSizeOk] using And.intro h1 h2

/-- Witness for C7: a lone sample of length 10 under budget 5 is emitted as the
singleton pack `[0]`. -/
theorem build_packs_terminates_witness :
    ([0] : List ℕ) ∈ build_packs [0] (fun _ => 10) .dataloader 5 1 10 0 := by
  have h := build_packs_terminates [0] (fun _ => 10) .dataloader 5 1 10 0 0
    (by decide) (by decide)
  exact h.2.2 (by decide) (by decide)

/-- C5: under the `seqlen` policy the ids are a stable ascending sort by length — a
permutation of the ids, sorted by length, preserving the relative order of every pair
already in weak length order (hence of equal-length ties) — and the greedy left-to-right
scan on the §8 example (`lengths [3,5,2,4,6,1]`, budget 7, bounds 1/10) emits exactly
the packs `[5,2,0]`, `[3]`, `[1]`, `[4]`. -/
theorem seqlen_order_spec :
    (∀ (ids : List ℕ) (len : ℕ → ℕ) (seed : ℕ),
      List.Perm (orderIds .seqlen ids len seed) ids ∧
      (orderIds .seqlen ids len seed).Sorted (fun a b => len a ≤ len b) ∧
      (∀ a b : ℕ, ([a, b] : List ℕ).Sublist ids → len a ≤ len b →
        ([a, b] : List ℕ).Sublist (orderIds .seqlen ids len seed))) ∧
    build_packs [0, 1, 2, 3, 4, 5] exLen .seqlen 7 1 10 42
      = [[5, 2, 0], [3], [1], [4]] := by
  constructor
  · intro ids len seed
    refine ⟨List.perm_insertionSort _ ids, ?_, ?_⟩
    · haveI : IsTotal ℕ (fun a b => len a ≤ len b) := ⟨fun a b => Nat.le_total _ _⟩
      haveI : IsTrans ℕ (fun a b => len a ≤ len b) := ⟨fun a b c => Nat.le_trans⟩
      exact List.sorted_insertionSort _ ids
    · intro a b hsub hab
      exact List.pair_sublist_insertionSort hab hsub
  · decide

/-- Witness for C5: on the §8 example the `seqlen` order is a permutation of the ids
and the pair `(1, 4)` (lengths `5 ≤ 6`) keeps its relative order. -/
theorem seqlen_order_witness :
    List.Perm (orderIds .seqlen [0, 1, 2, 3, 4, 5] exLen 42) [0, 1, 2, 3, 4, 5] ∧
    ([1, 4] : List ℕ).Sublist (orderIds .seqlen [0, 1, 2, 3, 4, 5] exLen 42) :=
  ⟨(seqlen_order_spec.1 [0, 1, 2, 3, 4, 5] exLen 42).1,
   (seqlen_order_spec.1 [0, 1, 2, 3, 4, 5] exLen 42).2.2 1 4 (by decide) (by decide)⟩

/-- Helper for C4: the trimmed pack sequence has length `len - len % world_size`. -/
theorem trimPacks_length (packs : List (List ℕ)) (ws : ℕ) :
    (trimPacks packs ws).length = packs.length - packs.length % ws := by
  simp only [trimPacks, List.length_take]
  exact min_eq_left (Nat.sub_le _ _)

/-- Helper for C4: the trimmed length is the multiple `world_size * (len / world_size)`. -/
theorem trimPacks_length_mul (packs : List (List ℕ)) (ws : ℕ) :
    (trimPacks packs ws).length = ws * (packs.length / ws) := by
  rw [trimPacks_length]
  exact Nat.sub_eq_of_eq_add (Nat.div_add_mod _ _).symm

/-- Helper for C4: a striped index `rank + i * world_size` stays inside the trimmed
sequence. -/
theorem partition_index_lt (packs : List (List ℕ)) (ws rank i : ℕ) (hws : 0 < ws)
    (hr : rank < ws) (hi : i < (trimPacks packs ws).length / ws) :
    rank + i * ws < (trimPacks packs ws).length := by
  have hdiv : (trimPacks packs ws).length / ws = packs.length / ws := by
    rw [trimPacks_length_mul]
    exact Nat.mul_div_cancel_left _ hws
  have hmul : (trimPacks packs ws).length = ws * ((trimPacks packs ws).length / ws) := by
    rw [hdiv, trimPacks_length_mul]
  have h1 : i + 1 ≤ (trimPacks packs ws).length / ws := hi
  calc rank + i * ws < ws + i * ws := by omega
    _ = (i + 1) * ws := by ring
    _ ≤ ((trimPacks packs ws).length / ws) * ws := Nat.mul_le_mul_right _ h1
    _ = ws * ((trimPacks packs ws).length / ws) := Nat.mul_comm _ _
    _ = (trimPacks packs ws).length := hmul.symm

/-- C4: `partition` trims the tail so that every rank receives exactly
`(len - len mod world_size) / world_size` packs, namely the trimmed packs at positions
`rank + i * world_size`; shards of distinct ranks are disjoint (for duplicate-free pack
sequences), and jointly the shards cover exactly the trimmed global pack sequence. -/
theorem partition_spec (packs : List (List ℕ)) (ws : ℕ) (hws : 0 < ws) :
    (∀ r, (partition packs r ws).length = (packs.length - packs.length % ws) / ws) ∧
    (∀ r i, i < (packs.length - packs.length % ws) / ws →
      (partition packs r ws).getD i [] = (trimPacks packs ws).getD (r + i * ws) []) ∧
    (packs.Nodup → ∀ r₁ r₂, r₁ < ws → r₂ < ws → r₁ ≠ r₂ →
      ∀ p, p ∈ partition packs r₁ ws → p ∉ partition packs r₂ ws) ∧
    (∀ p, p ∈ trimPacks packs ws ↔ ∃ r, r < ws ∧ p ∈ partition packs r ws) := by
  have hdvd : ws ∣ (trimPacks packs ws).length :=
    ⟨packs.length / ws, trimPacks_length_mul packs ws⟩
  refine ⟨?_, ?_, ?_, ?_⟩
  · intro r
    simp [partition, trimPacks_length]
  · intro r i hi
    have hi' : i < (trimPacks packs ws).length / ws := by
      rw [trimPacks_length]
      exact hi
    simp only [partition]
    rw [List.getD_eq_getElem?_getD, List.getElem?_map, List.getElem?_range hi']
    rfl
  · intro hnd r₁ r₂ h1 h2 hne p hp1 hp2
    have hndt : (trimPacks packs ws).Nodup :=
      hnd.sublist (List.take_sublist _ _)
    simp only [partition, List.mem_map, List.mem_range] at hp1 hp2
    obtain ⟨i, hi, hpi⟩ := hp1
    obtain ⟨j, hj, hpj⟩ := hp2
    have hbi := partition_index_lt packs ws r₁ i hws h1 hi
    have hbj := partition_index_lt packs ws r₂ j hws h2 hj
    rw [List.getD_eq_getElem _ _ hbi] at hpi
    rw [List.getD_eq_getElem _ _ hbj] at hpj
    have heq : r₁ + i * ws = r₂ + j * ws :=
      (hndt.getElem_inj_iff).mp (hpi.trans hpj.symm)
    have hmod : (r₁ + i * ws) % ws = (r₂ + j * ws) % ws := by rw [heq]
    rw [Nat.add_mul_mod_self_right, Nat.add_mul_mod_self_right,
      Nat.mod_eq_of_lt h1, Nat.mod_eq_of_lt h2] at hmod
    exact hne hmod
  · intro p
    constructor
    · intro hp
      obtain ⟨j, hjlt, hjp⟩ := List.mem_iff_getElem.mp hp
      refine ⟨j % ws, Nat.mod_lt _ hws, ?_⟩
      simp only [partition, List.mem_map, List.mem_range]
      refine ⟨j / ws, Nat.div_lt_div_of_lt_of_dvd hdvd hjlt, ?_⟩
      have hidx : j % ws + j / ws * ws = j := by
        rw [Nat.mul_comm]
        exact Nat.mod_add_div _ _
      rw [hidx, List.getD_eq_getElem _ _ hjlt]
      exact hjp
    · rintro ⟨r, hr, hp⟩
      simp only [partition, List.mem_map, List.mem_range] at hp
      obtain ⟨i, hi, hpi⟩ := hp
      have hb := partition_index_lt packs ws r i hws hr hi
      rw [List.getD_eq_getElem _ _ hb] at hpi
      exact hpi ▸ List.getElem_mem hb

/-- Witness for C4: `world_size = 2` with 5 packs — trimmed to 4, rank 0 holds
positions `{0, 2}`, rank 1 holds `{1, 3}`, and the pack `[0]` of rank 0's shard does
not appear in rank 1's shard. -/
theorem partition_spec_witness :
    (partition [[0], [1], [2], [3], [4]] 0 2).length = (5 - 5 % 2) / 2 ∧
    ([0] : List ℕ) ∉ partition [[0], [1], [2], [3], [4]] 1 2 ∧
    partition [[0], [1], [2], [3], [4]] 0 2 = [[0], [2]] ∧
    partition [[0], [1], [2], [3], [4]] 1 2 = [[1], [3]] :=
  ⟨(partition_spec [[0], [1], [2], [3], [4]] 2 (by decide)).1 0,
   (partition_spec [[0], [1], [2], [3], [4]] 2 (by decide)).2.2.1 (by decide) 0 1
     (by decide) (by decide) (by decide) [0] (by decide),
   by decide, by decide⟩

/-- Helper for C10: padding a sequence with any number of padding rows preserves the
recovered length, provided no original row starts with the padding value. -/
theorem seqlen_of_padded (s : List (List ℤ)) (E m : ℕ)
    (hrows : ∀ row ∈ s, row.headI ≠ padding_value) :
    seqlen_of (s ++ List.replicate m (List.replicate E padding_value)) = s.length := by
  have hfalse : ∀ row ∈ s,
      (fun row : List ℤ => row.headI == padding_value) row = false := by
    intro row hr
    simp only [beq_eq_false_iff_ne]
    exact hrows row hr
  have hnone : s.findIdx? (fun row => row.headI == padding_value) = Option.none :=
    List.findIdx?_eq_none_iff.mpr hfalse
  have hpad : (List.replicate E padding_value).headI = padding_value := by
    cases E with
    | zero => rfl
    | succ k => rfl
  cases m with
  | zero =>
    simp only [List.replicate_zero, List.append_nil, seqlen_of, hnone, Option.getD_none]
  | succ k =>
    have hsome : (List.replicate (k + 1) (List.replicate E padding_value)).findIdx?
        (fun row => row.headI == padding_value) = Option.some 0 := by
      simp [List.replicate_succ, List.findIdx?_cons, hpad]
    have hfull : (s ++ List.replicate (k + 1) (List.replicate E padding_value)).findIdx?
        (fun row => row.headI == padding_value) = Option.some (0 + s.length) := by
      rw [List.findIdx?_append, hnone, hsome]
      rfl
    simp only [seqlen_of, hfull, Option.getD_some]
    omega

/-- C10: for every batch of (sequence, label) pairs that is non-empty, with every
sequence non-empty and no sequence containing the padding value 0 in its first
embedding dimension, `batch_seqlens_fn` applied to `batch_collate_fn`'s output returns
exactly the original length of each sequence, in order. -/
theorem collate_seqlens_roundtrip (E : ℕ) (batch : List (List (List ℤ) × ℕ))
    (_hne : batch ≠ [])
    (hgood : ∀ sl ∈ batch, sl.1 ≠ [] ∧ ∀ row ∈ sl.1, row.headI ≠ padding_value) :
    batch_seqlens_fn (batch_collate_fn E batch) = batch.map (fun sl => sl.1.length) := by
  simp only [batch_seqlens_fn, batch_collate_fn, List.map_map]
  apply List.map_congr_left
  intro sl hsl
  simp only [Function.comp_apply]
  exact seqlen_of_padded sl.1 E _ (hgood sl hsl).2

/-- Witness for C10: a batch of two sequences of lengths 2 and 1 (embedding dimension
1, no zero entries) collates and recovers the lengths `[2, 1]`. -/
theorem collate_seqlens_witness :
    batch_seqlens_fn (batch_collate_fn 1 [([[1], [1]], 2), ([[2]], 1)]) = [2, 1] := by
  have h := collate_seqlens_roundtrip 1 [([[1], [1]], 2), ([[2]], 1)] (by decide)
    (by decide)
  exact h.trans (by decide)

end VarBatch
